import Mathlib

/-!
Verification of the SatMapModifier tiling pipeline
(`source/scripts/image_slicer.py`, `source/scripts/auto_airbrush.py`,
`source/scripts/_stitch_brushed.py`).

Raster images are shallowly embedded as a pixel function over natural
coordinates together with explicit width/height bounds.  Pillow RGB images
are represented with a constant alpha of 255, which matches Pillow's
`convert` semantics for the RGB/RGBA pairs that occur in these scripts.
-/

/-- An 8-bit RGBA pixel (channel values are naturals; the scripts only ever
produce values in 0..255). -/
structure RGBA where
  r : Nat
  g : Nat
  b : Nat
  a : Nat
deriving DecidableEq, Repr

/-- The fully transparent pixel `(0, 0, 0, 0)`. -/
def transparent : RGBA := ⟨0, 0, 0, 0⟩

/-- The Pillow color modes used by the scripts. -/
inductive PMode where
  | rgb
  | rgba
deriving DecidableEq, Repr

/-- A Pillow image: a mode, a size, and a pixel function (only the values at
coordinates `x < width`, `y < height` are meaningful). -/
structure PImage where
  mode : PMode
  width : Nat
  height : Nat
  pix : Nat → Nat → RGBA

/-- `Image.convert`: RGBA→RGB drops the alpha channel (the result is opaque,
represented as alpha 255); RGB→RGBA adds an opaque alpha channel (already the
stored value by our RGB convention); same-mode conversion is the identity. -/
def PImage.convert (img : PImage) (m : PMode) : PImage :=
  match img.mode, m with
  | PMode.rgba, PMode.rgb => { img with mode := m, pix := fun x y => { img.pix x y with a := 255 } }
  | _, _ => { img with mode := m }

/-- `Image.paste(src, (px, py))`: destination pixels covered by the source
rectangle take the source values; everything else is unchanged.  Offsets are
integers (Pillow clips pastes that fall outside the destination; pixels of
the destination are only ever read at natural coordinates inside it). -/
def PImage.paste (dst : PImage) (src : PImage) (px py : Int) : PImage :=
  { dst with pix := fun x y =>
      if px ≤ (x : Int) ∧ (x : Int) < px + src.width ∧ py ≤ (y : Int) ∧ (y : Int) < py + src.height
      then src.pix ((x : Int) - px).toNat ((y : Int) - py).toNat
      else dst.pix x y }

/-- Ceiling division, the integer value of Python's `math.ceil(a / b)` for
naturals with `b > 0`. -/
def cdiv (a b : Nat) : Nat := (a + b - 1) / b

/-- One chunk of `slice_image` (image_slicer.py lines 63-81): crop the region
from `(col*C, row*C)` to `(min(col*C+C, W), min(row*C+C, H))`; if the crop is
not exactly `C × C`, create a transparent RGBA `C × C` canvas and paste the
crop at `(0, 0)` (Pillow's paste converts the source to the destination
mode). -/
def chunkTile (img : PImage) (C : Nat) (row col : Nat) : PImage :=
  let left := col * C
  let top := row * C
  let right := min (left + C) img.width
  let bottom := min (top + C) img.height
  let chunk : PImage :=
    { mode := img.mode, width := right - left, height := bottom - top,
      pix := fun x y => img.pix (left + x) (top + y) }
  if chunk.width = C ∧ chunk.height = C then chunk
  else
    let padded : PImage := { mode := PMode.rgba, width := C, height := C, pix := fun _ _ => transparent }
    padded.paste (chunk.convert PMode.rgba) 0 0

/-- `slice_image` (image_slicer.py lines 28-95): the row-major list of
`(row, col, chunk)` produced by the nested `for row / for col` loops, with
`rows = ceil(H/C)` and `cols = ceil(W/C)`. -/
def slice_image (img : PImage) (C : Nat) : List (Nat × Nat × PImage) :=
  (List.range (cdiv img.height C)).flatMap (fun row =>
    (List.range (cdiv img.width C)).map (fun col => (row, col, chunkTile img C row col)))

/-- What the `slice_image` call does, seen from its caller: either an
exception propagates out of the function, or the function returns normally
having produced the given tiles. -/
inductive SliceOutcome where
  | raised (msg : String)
  | returned (tiles : List (Nat × Nat × PImage))

/-- The whole of `slice_image` including its decode error handling
(image_slicer.py lines 43-47): `decoded` is the result of `Image.open`
(`none` when the source cannot be decoded).  On a decode failure the script
catches the exception, prints a message, and returns normally without
producing any tiles. -/
def slice_image_run (decoded : Option PImage) (C : Nat) : SliceOutcome :=
  match decoded with
  | none => SliceOutcome.returned []
  | some img => SliceOutcome.returned (slice_image img C)

/-- The tiles of `slice_image` keyed by their true grid coordinates in the
`(x = col, y = row)` convention that `arrange_by_coords` produces from the
`{row}_{col}.png` filenames (stitching with the TRUE coordinates). -/
def sliceMapping (img : PImage) (C : Nat) : List ((Int × Int) × Option PImage) :=
  (slice_image img C).map (fun t => ((Int.ofNat t.2.1, Int.ofNat t.1), some t.2.2))

/-- Tile size resolution at the top of `stitch` (_stitch_brushed.py lines
126-131): an explicit size is used as is; otherwise the first tile of the
mapping is opened to read its dimensions, and this open is NOT inside any
try/except, so an empty mapping (`StopIteration`) or an undecodable first
tile raises out of `stitch`. -/
def resolveTileSize (tileSize : Option Nat) (mapping : List ((Int × Int) × Option PImage)) :
    Except String (Nat × Nat) :=
  match tileSize with
  | some ts => Except.ok (ts, ts)
  | none =>
    match mapping with
    | [] => Except.error "StopIteration"
    | (_, none) :: _ => Except.error "cannot identify image file"
    | (_, some t) :: _ => Except.ok (t.width, t.height)

/-- One iteration of the paste loop of `stitch` (_stitch_brushed.py lines
143-151): an undecodable tile (`none`) is skipped with a warning; otherwise
the tile is converted to the canvas mode and pasted at
`((x - min_x) * tile_w, (y - min_y) * tile_h)`. -/
def pasteStep (mode : PMode) (min_x min_y : Int) (tw th : Nat)
    (cv : PImage) (e : (Int × Int) × Option PImage) : PImage :=
  match e.2 with
  | none => cv
  | some t => cv.paste (t.convert mode) ((e.1.1 - min_x) * tw) ((e.1.2 - min_y) * th)

/-- `stitch` (_stitch_brushed.py lines 124-157) up to the point where the
stitched image exists in memory (the optional BMP re-mode at save time does
not change any of the facts proved below).  `fillHasAlpha` records whether
`fill_color` was passed as a 4-tuple, which selects the RGBA canvas mode;
decode failures of individual tiles are the `none` entries of `mapping`. -/
def stitch (mapping : List ((Int × Int) × Option PImage)) (min_x min_y max_x max_y : Int)
    (fill : RGBA) (fillHasAlpha : Bool) (tileSize : Option Nat) : Except String PImage :=
  match resolveTileSize tileSize mapping with
  | Except.error e => Except.error e
  | Except.ok (tw, th) =>
    let mode := if fillHasAlpha then PMode.rgba else PMode.rgb
    let fillPix := if fillHasAlpha then fill else { fill with a := 255 }
    let cols := (max_x - min_x + 1).toNat
    let rows := (max_y - min_y + 1).toNat
    let canvas0 : PImage := { mode := mode, width := cols * tw, height := rows * th, pix := fun _ _ => fillPix }
    Except.ok (mapping.foldl (pasteStep mode min_x min_y tw th) canvas0)

/-- The paste rectangle of the mapping entry with key `k`: the canvas pixels
`(X, Y)` it covers when the pasted tile is exactly `tw × th`. -/
def inRegion (min_x min_y : Int) (tw th : Nat) (k : Int × Int) (X Y : Nat) : Prop :=
  (k.1 - min_x) * tw ≤ (X : Int) ∧ (X : Int) < (k.1 - min_x) * tw + tw ∧
  (k.2 - min_y) * th ≤ (Y : Int) ∧ (Y : Int) < (k.2 - min_y) * th + th

instance (min_x min_y : Int) (tw th : Nat) (k : Int × Int) (X Y : Nat) :
    Decidable (inRegion min_x min_y tw th k X Y) := by
  unfold inRegion; infer_instance

/-! ## auto_airbrush.py: classifier, refiner, filler fast path -/

/-- A 3-channel OpenCV image (`cv2.imread` with `IMREAD_COLOR`): pixels are
`(b, g, r)` byte triples. -/
structure Image3 where
  width : Nat
  height : Nat
  pix : Nat → Nat → Nat × Nat × Nat

/-- A single-channel byte image, as produced for masks. -/
structure Gray where
  width : Nat
  height : Nat
  pix : Nat → Nat → Nat

/-- The V channel of OpenCV's 8-bit BGR→HSV conversion: `max(r, g, b)`. -/
def hsvV (b g r : Nat) : Nat := max r (max g b)

/-- The S channel of OpenCV's 8-bit BGR→HSV conversion:
`round(255 * (V - min) / V)` for `V ≠ 0`, else `0` (OpenCV computes this in
fixed point; the formula below is round-half-up, which agrees with it at
every value this development evaluates). -/
def hsvS (b g r : Nat) : Nat :=
  let vmax := hsvV b g r
  let vmin := min r (min g b)
  if vmax = 0 then 0 else (2 * 255 * (vmax - vmin) + vmax) / (2 * vmax)

/-- `cv2.absdiff` on one byte pair. -/
def absdiffN (x y : Nat) : Nat := max x y - min x y

/-- `SAT_THRESHOLD` (auto_airbrush.py line 39). -/
def SAT_THRESHOLD : Nat := 40
/-- `VAL_THRESHOLD` (auto_airbrush.py line 40). -/
def VAL_THRESHOLD : Nat := 120
/-- `RGB_DIFF_THRESHOLD` (auto_airbrush.py line 41). -/
def RGB_DIFF_THRESHOLD : Nat := 20

/-- `is_grayish_mask_bgr` (auto_airbrush.py lines 49-66): the per-pixel mask
byte is 255 where `(s <= SAT_THRESHOLD) & (v >= VAL_THRESHOLD)` and all three
pairwise channel absolute differences are `<= RGB_DIFF_THRESHOLD`, else 0. -/
def is_grayish_mask_bgr (img : Image3) : Gray :=
  { width := img.width, height := img.height,
    pix := fun x y =>
      let p := img.pix x y
      let b := p.1
      let g := p.2.1
      let r := p.2.2
      if (hsvS b g r ≤ SAT_THRESHOLD ∧ VAL_THRESHOLD ≤ hsvV b g r) ∧
         (absdiffN b g ≤ RGB_DIFF_THRESHOLD ∧ absdiffN b r ≤ RGB_DIFF_THRESHOLD ∧
          absdiffN g r ≤ RGB_DIFF_THRESHOLD)
      then 255 else 0 }

/-- The 3×3 elliptical structuring element
(`cv2.getStructuringElement(cv2.MORPH_ELLIPSE, (3, 3))` is the 3×3 cross),
as the list of its offsets from the anchor. -/
def kernelOffsets : List (Int × Int) := [(0, -1), (-1, 0), (0, 0), (1, 0), (0, 1)]

/-- The mask values under the kernel that fall inside the image (OpenCV's
default morphology border value makes out-of-image positions neutral for
both erosion and dilation). -/
def neighborVals (m : Gray) (x y : Nat) : List Nat :=
  kernelOffsets.filterMap (fun d =>
    let X := (x : Int) + d.1
    let Y := (y : Int) + d.2
    if 0 ≤ X ∧ X < (m.width : Int) ∧ 0 ≤ Y ∧ Y < (m.height : Int)
    then some (m.pix X.toNat Y.toNat) else none)

/-- `cv2.dilate` with the cross kernel: per-pixel maximum over the in-image
kernel positions. -/
def dilateG (m : Gray) : Gray :=
  { m with pix := fun x y => (neighborVals m x y).foldl max 0 }

/-- `cv2.erode` with the cross kernel: per-pixel minimum over the in-image
kernel positions. -/
def erodeG (m : Gray) : Gray :=
  { m with pix := fun x y =>
      match neighborVals m x y with
      | [] => 0
      | v :: vs => vs.foldl min v }

/-- `refine_mask` (auto_airbrush.py lines 69-77): morphological close
(dilate, erode), then open (erode, dilate), then `DILATE_ITER = 2` further
dilations. -/
def refine_mask (m : Gray) : Gray :=
  dilateG (dilateG (dilateG (erodeG (erodeG (dilateG m)))))

/-- `cv2.countNonZero` over the mask's domain. -/
def countNonZero (m : Gray) : Nat :=
  (List.range m.height).foldl
    (fun acc y => acc + (List.range m.width).countP (fun x => m.pix x y ≠ 0)) 0

/-- `process_image_file` (auto_airbrush.py lines 109-179) as a function of
the decode result (`cv2.imread` returning `none` on failure, in which case
the script returns `False` without writing anything).  `brush` stands for
the mask-nonempty branch (lines 148-169: `cv2.inpaint`, green-mean blending,
Gaussian smoothing), which no claim about this function exercises; the
zero-mask fast path (lines 139-145) writes the input image unchanged
together with the (empty) mask. -/
def process_image_file (brush : Image3 → Gray → Image3) (decoded : Option Image3) :
    Option (Image3 × Gray) :=
  match decoded with
  | none => none
  | some img =>
    let mask := refine_mask (is_grayish_mask_bgr img)
    if countNonZero mask = 0 then some (img, mask) else some (brush img mask, mask)

/-! ## _stitch_brushed.py: tile locator -/

/-- The root part of `os.path.splitext` for a bare filename (no directory
separators): the extension starts at the last dot, unless every character
before that dot is itself a dot. -/
def splitextRoot (s : String) : String :=
  let cs := s.toList
  if cs.contains '.' then
    let after := cs.reverse.takeWhile (fun c => c ≠ '.')
    let root := cs.take (cs.length - after.length - 1)
    if root.any (fun c => c ≠ '.') then String.mk root else s
  else s

/-- State of the left-to-right scan that reproduces
`re.findall(r"-?\d+", base)`: outside any match, just after a bare `-`, or
inside a (possibly negated) digit run. -/
inductive ScanState where
  | idle
  | pendingNeg
  | inNum (neg : Bool) (val : Nat)

/-- The integer value of a finished digit run. -/
def numVal (neg : Bool) (v : Nat) : Int := if neg then -(v : Int) else (v : Int)

/-- The scan: a maximal digit run, optionally preceded immediately by `-`,
yields one integer; every other character is skipped. -/
def extract_ints_go (st : ScanState) : List Char → List Int
  | [] =>
    match st with
    | ScanState.inNum neg v => [numVal neg v]
    | _ => []
  | c :: cs =>
    if c.isDigit then
      match st with
      | ScanState.inNum neg v => extract_ints_go (ScanState.inNum neg (v * 10 + (c.toNat - 48))) cs
      | ScanState.pendingNeg => extract_ints_go (ScanState.inNum true (c.toNat - 48)) cs
      | ScanState.idle => extract_ints_go (ScanState.inNum false (c.toNat - 48)) cs
    else if c = '-' then
      match st with
      | ScanState.inNum neg v => numVal neg v :: extract_ints_go ScanState.pendingNeg cs
      | _ => extract_ints_go ScanState.pendingNeg cs
    else
      match st with
      | ScanState.inNum neg v => numVal neg v :: extract_ints_go ScanState.idle cs
      | _ => extract_ints_go ScanState.idle cs

/-- `re.findall(r"-?\d+", ·)` as integers, in order of occurrence. -/
def extract_ints (cs : List Char) : List Int := extract_ints_go ScanState.idle cs

/-- `parse_coords_from_name` (_stitch_brushed.py lines 57-72): all integer
substrings of the filename's base name; with at least two, the LAST two are
`(row, col)`; otherwise `None`. -/
def parse_coords_from_name (name : String) : Option (Int × Int) :=
  let nums := extract_ints (splitextRoot name).toList
  match nums.reverse with
  | c :: r :: _ => some (r, c)
  | _ => none

/-- Python dict assignment `m[k] = v` on an insertion-ordered association
list: an existing key keeps its position and takes the new value, a new key
is appended. -/
def dictInsert (m : List ((Int × Int) × String)) (k : Int × Int) (v : String) :
    List ((Int × Int) × String) :=
  if m.any (fun p => p.1 = k) then m.map (fun p => if p.1 = k then (k, v) else p)
  else m ++ [(k, v)]

/-- The parse results of a file list, `none` as soon as any file fails to
parse (the early `return None` of the `for f in files` loop). -/
def parseAllCoords : List String → Option (List (Int × Int))
  | [] => some []
  | f :: fs =>
    match parse_coords_from_name f with
    | none => none
    | some rc =>
      match parseAllCoords fs with
      | none => none
      | some rest => some (rc :: rest)

/-- `arrange_by_coords` (_stitch_brushed.py lines 75-92): parse every file
(any failure fails the whole set), build `mapping[(col, row)] = f`, and
return it with the bounding extents of the observed columns and rows; an
empty mapping also yields `None`. -/
def arrange_by_coords (files : List String) :
    Option (List ((Int × Int) × String) × Int × Int × Int × Int) :=
  match parseAllCoords files with
  | none => none
  | some coords =>
    let entries := (files.zip coords).map (fun p => ((p.2.2, p.2.1), p.1))
    let mapping := entries.foldl (fun m e => dictInsert m e.1 e.2) []
    match coords with
    | [] => none
    | rc :: rest =>
      let xs := (rc :: rest).map (fun p => p.2)
      let ys := (rc :: rest).map (fun p => p.1)
      some (mapping, xs.foldl min rc.2, ys.foldl min rc.1, xs.foldl max rc.2, ys.foldl max rc.1)

/-- The divisor search of `fallback_grid` with an explicit upper row count:
`for rows in range(1, bound + 1): if n % rows == 0: best = (rows, n // rows)`
keeps the LAST exact divisor found. -/
def foldBest (n bound : Nat) : Option (Nat × Nat) :=
  (List.range' 1 bound).foldl
    (fun best rows => if n % rows = 0 then some (rows, n / rows) else best) none

/-- The divisor search of `fallback_grid` (_stitch_brushed.py lines 99-103):
`range(1, int(math.sqrt(n)) + 2)`, i.e. row counts `1 .. floor(sqrt n) + 1`
(`int(math.sqrt(n))` is the floor square root for every count a file list
can realize). -/
def fallbackBest (n : Nat) : Option (Nat × Nat) := foldBest n (Nat.sqrt n + 1)

/-- `math.ceil(math.sqrt(n))` for naturals. -/
def ceilSqrt (n : Nat) : Nat :=
  if Nat.sqrt n * Nat.sqrt n = n then Nat.sqrt n else Nat.sqrt n + 1

/-- The row-major position assignment of `fallback_grid` (_stitch_brushed.py
lines 111-118): `mapping[(c, r)] = files[idx]` with `idx = r * cols + c`,
stopping once the files run out (the `if idx >= n: break` guard). -/
def gridAssign (files : List String) (rows cols : Nat) : List ((Int × Int) × String) :=
  (List.range rows).flatMap (fun r =>
    (List.range cols).filterMap (fun c =>
      if r * cols + c < files.length
      then some ((Int.ofNat c, Int.ofNat r), files.getD (r * cols + c) "")
      else none))

/-- `fallback_grid` (_stitch_brushed.py lines 95-121): pick `(rows, cols)`
from the divisor search, defaulting to a ceiling-square grid when the search
found nothing, then assign files row-major; extents are
`(0, 0, cols - 1, rows - 1)`. -/
def fallback_grid (files : List String) :
    List ((Int × Int) × String) × Int × Int × Int × Int :=
  let n := files.length
  let rc :=
    match fallbackBest n with
    | none => let cols := ceilSqrt n; (cdiv n cols, cols)
    | some rc => rc
  let rows := rc.1
  let cols := rc.2
  (gridAssign files rows cols, 0, 0, (cols : Int) - 1, (rows : Int) - 1)

/-- Modelled from the claim's words (not from the source, which uses
`int(math.sqrt(n)) + 2` as the exclusive bound): the same upward divisor
search but over row counts `1 .. ceil(sqrt n) + 1`, as the claim describes. -/
def claimSearchRows (n : Nat) : Option (Nat × Nat) := foldBest n (ceilSqrt n + 1)

/-- The classifier condition exactly as the specification words it: the
HSV-side condition (saturation at most 40, value at least 120) conjoined
with the channel-neutrality condition (all three pairwise absolute channel
differences at most 20). -/
def grayishSpec (p : Nat × Nat × Nat) : Prop :=
  (hsvS p.1 p.2.1 p.2.2 ≤ 40 ∧ 120 ≤ hsvV p.1 p.2.1 p.2.2) ∧
  (absdiffN p.1 p.2.1 ≤ 20 ∧ absdiffN p.1 p.2.2 ≤ 20 ∧ absdiffN p.2.1 p.2.2 ≤ 20)

/-- Test fixture: a 1×1 pure saturated green tile (BGR `(0, 255, 0)`). -/
def greenTile1 : Image3 := ⟨1, 1, fun _ _ => (0, 255, 0)⟩

/-- Test fixture: a 2×2 uniform mid-gray tile (`R = G = B = 150`). -/
def grayTile2 : Image3 := ⟨2, 2, fun _ _ => (150, 150, 150)⟩

/-- Test fixture: a 2×2 pure saturated green tile. -/
def greenTile2 : Image3 := ⟨2, 2, fun _ _ => (0, 255, 0)⟩

/-- Opaque pure red. -/
def redPix : RGBA := ⟨255, 0, 0, 255⟩

/-- Test fixture: a 4×4 opaque red RGBA tile. -/
def redTile4 : PImage := ⟨PMode.rgba, 4, 4, fun _ _ => redPix⟩

/-- Test fixture: a 3×5 RGBA image with pairwise distinct pixels. -/
def testImg35 : PImage := ⟨PMode.rgba, 3, 5, fun x y => ⟨x, y, x + y, 200⟩⟩

/-- Test fixture: a 1×2 layout of two red tiles (the spec's stitch
background example). -/
def redMapping : List ((Int × Int) × Option PImage) :=
  [((0, 0), some redTile4), ((1, 0), some redTile4)]

/-- Test fixture: a mapping whose first tile fails to decode. -/
def mixedMapping : List ((Int × Int) × Option PImage) :=
  [((0, 0), none), ((1, 0), some redTile4)]

/-! ## Theorems -/

/-- C3 counterexample: when the source image cannot be decoded,
`slice_image` returns normally with no tiles produced — no `IOError` (nor
any other exception) reaches the caller, because the `except` clause at
image_slicer.py lines 45-47 swallows the exception and returns. -/
theorem slice_decode_failure_counterexample :
    slice_image_run none 1024 = SliceOutcome.returned [] ∧
    ¬ ∃ e, slice_image_run none 1024 = SliceOutcome.raised e := by
  refine ⟨rfl, ?_⟩
  rintro ⟨e, h⟩
  exact SliceOutcome.noConfusion h

/-- C3 (amended): for every chunk size, a decode failure of the source makes
`slice_image` catch the exception, print an error and return normally with
zero tiles produced; the failure is not signalled to the caller as an
exception. -/
theorem slice_decode_failure_returns_no_tiles (C : Nat) :
    slice_image_run none C = SliceOutcome.returned [] := rfl

/-- C5: when the refined mask of a tile has zero flagged pixels,
`process_image_file` returns the input tile unchanged (together with the
empty mask), and it does produce an output rather than skipping — for any
behaviour `brush` of the mask-nonempty branch, which is not taken. -/
theorem process_zero_mask_identity (brush : Image3 → Gray → Image3) (img : Image3)
    (h : countNonZero (refine_mask (is_grayish_mask_bgr img)) = 0) :
    process_image_file brush (some img) =
      some (img, refine_mask (is_grayish_mask_bgr img)) := by
  simp [process_image_file, h]

/-- C5 witness: the 1×1 pure-green tile has an empty refined mask and is
returned unchanged. -/
theorem process_zero_mask_identity_witness :
    countNonZero (refine_mask (is_grayish_mask_bgr greenTile1)) = 0 ∧
    process_image_file (fun i _ => i) (some greenTile1) =
      some (greenTile1, refine_mask (is_grayish_mask_bgr greenTile1)) :=
  ⟨by decide, process_zero_mask_identity (fun i _ => i) greenTile1 (by decide)⟩

/-- C4: a pixel is flagged (byte 255) in the raw mask exactly when the
specification's conjunction holds (saturation at most 40 and value at least
120, and all pairwise channel differences at most 20); consequently a
uniformly mid-gray tile has a fully true raw mask and a uniformly
pure-green tile has a fully false raw mask. -/
theorem grayish_mask_spec (img : Image3) :
    (∀ x, x < img.width → ∀ y, y < img.height →
      ((is_grayish_mask_bgr img).pix x y = 255 ↔ grayishSpec (img.pix x y))) ∧
    ((∀ x, x < img.width → ∀ y, y < img.height → img.pix x y = (150, 150, 150)) →
      ∀ x, x < img.width → ∀ y, y < img.height → (is_grayish_mask_bgr img).pix x y = 255) ∧
    ((∀ x, x < img.width → ∀ y, y < img.height → img.pix x y = (0, 255, 0)) →
      ∀ x, x < img.width → ∀ y, y < img.height → (is_grayish_mask_bgr img).pix x y = 0) := by
  refine ⟨?_, ?_, ?_⟩
  · intro x _ y _
    simp only [is_grayish_mask_bgr, grayishSpec, SAT_THRESHOLD, VAL_THRESHOLD,
      RGB_DIFF_THRESHOLD]
    split
    · next hcond => simpa using hcond
    · next hcond => simpa using hcond
  · intro h x hx y hy
    simp only [is_grayish_mask_bgr, h x hx y hy]
    decide
  · intro h x hx y hy
    simp only [is_grayish_mask_bgr, h x hx y hy]
    decide

/-- C4 witness: the per-pixel equivalence and the fully-true mask fact at
the concrete 2×2 mid-gray tile, and the fully-false mask fact at the
concrete 2×2 pure-green tile. -/
theorem grayish_mask_spec_witness :
    ((∀ x, x < grayTile2.width → ∀ y, y < grayTile2.height →
        grayTile2.pix x y = (150, 150, 150)) ∧
      (∀ x, x < grayTile2.width → ∀ y, y < grayTile2.height →
        (is_grayish_mask_bgr grayTile2).pix x y = 255)) ∧
    ((∀ x, x < greenTile2.width → ∀ y, y < greenTile2.height →
        greenTile2.pix x y = (0, 255, 0)) ∧
      (∀ x, x < greenTile2.width → ∀ y, y < greenTile2.height →
        (is_grayish_mask_bgr greenTile2).pix x y = 0)) :=
  ⟨⟨by decide, (grayish_mask_spec grayTile2).2.1 (by decide)⟩,
   ⟨by decide, (grayish_mask_spec greenTile2).2.2 (by decide)⟩⟩

/-- If any file fails to parse, `parseAllCoords` fails for the whole set. -/
theorem parseAllCoords_eq_none_of_mem :
    ∀ (l : List String) (a : String), a ∈ l → parse_coords_from_name a = none →
      parseAllCoords l = none := by
  intro l
  induction l with
  | nil => intro a ha; exact absurd ha (List.not_mem_nil a)
  | cons b t ih =>
    intro a ha hfa
    rcases List.mem_cons.mp ha with h | h
    · subst h
      simp [parseAllCoords, hfa]
    · simp only [parseAllCoords]
      cases hfb : parse_coords_from_name b with
      | none => rfl
      | some v => simp [ih a h hfa]

/-- C6: the primary locator strategy.  When the digit runs of a base name
end in `..., r, c`, the parser returns `(row, col) = (r, c)` (the last two
runs, rightmost being the column); with fewer than two runs it returns
`none`; one unparsable file makes `arrange_by_coords` fail for the whole
set; and the four example filenames produce exactly the claimed coordinate
assignment with bounding box `(0, 0, 1, 1)` (keys of the mapping are in the
`(x = col, y = row)` convention). -/
theorem locator_primary_spec :
    (∀ (name : String) (pre : List Int) (r c : Int),
      extract_ints (splitextRoot name).toList = pre ++ [r, c] →
      parse_coords_from_name name = some (r, c)) ∧
    (∀ name : String, (extract_ints (splitextRoot name).toList).length < 2 →
      parse_coords_from_name name = none) ∧
    (∀ (files : List String) (f : String), f ∈ files → parse_coords_from_name f = none →
      arrange_by_coords files = none) ∧
    parse_coords_from_name "tile_0_0_brushed.png" = some (0, 0) ∧
    parse_coords_from_name "tile_0_1_brushed.png" = some (0, 1) ∧
    parse_coords_from_name "tile_1_0_brushed.png" = some (1, 0) ∧
    parse_coords_from_name "tile_1_1_brushed.png" = some (1, 1) ∧
    arrange_by_coords ["tile_0_0_brushed.png", "tile_0_1_brushed.png",
        "tile_1_0_brushed.png", "tile_1_1_brushed.png"] =
      some ([((0, 0), "tile_0_0_brushed.png"), ((1, 0), "tile_0_1_brushed.png"),
             ((0, 1), "tile_1_0_brushed.png"), ((1, 1), "tile_1_1_brushed.png")],
            0, 0, 1, 1) := by
  refine ⟨?_, ?_, ?_, by decide, by decide, by decide, by decide, by decide⟩
  · intro name pre r c h
    have h2 : extract_ints (splitextRoot name).data = pre ++ [r, c] := h
    simp [parse_coords_from_name, h2]
  · intro name h
    simp only [parse_coords_from_name]
    generalize hn : extract_ints (splitextRoot name).toList = nums at h ⊢
    match hrev : nums.reverse with
    | [] => rfl
    | [a] => rfl
    | a :: b :: t =>
      exfalso
      have : nums.length = (a :: b :: t).length := by rw [← hrev, List.length_reverse]
      simp at this
      omega
  · intro files f hmem hnone
    simp only [arrange_by_coords]
    rw [parseAllCoords_eq_none_of_mem files f hmem hnone]

/-- C6 witness: the general last-two-runs rule applied at a concrete
filename whose base name yields the digit runs `[3, 5]`. -/
theorem locator_primary_spec_witness :
    extract_ints (splitextRoot "tile_3_5_brushed.png").toList = [] ++ [3, 5] ∧
    parse_coords_from_name "tile_3_5_brushed.png" = some (3, 5) :=
  ⟨by decide, locator_primary_spec.1 "tile_3_5_brushed.png" [] 3 5 (by decide)⟩

/-- The upward divisor search over row counts `1 .. bound` returns the
LARGEST divisor of `n` in that range (it keeps the last one found). -/
theorem foldBest_spec (n : Nat) (hn : 0 < n) :
    ∀ bound, 1 ≤ bound →
      ∃ r, foldBest n bound = some (r, n / r) ∧ r ∣ n ∧ 0 < r ∧ r ≤ bound ∧
        ∀ d, d ∣ n → d ≤ bound → d ≤ r := by
  intro bound
  induction bound with
  | zero => intro h; omega
  | succ m ih =>
    intro _
    by_cases hm : 1 ≤ m
    · obtain ⟨r, hfold, hdvd, hpos, hle, hmax⟩ := ih hm
      by_cases hdm : n % (m + 1) = 0
      · refine ⟨m + 1, ?_, ?_, by omega, le_refl _, ?_⟩
        · simp only [foldBest, List.range'_1_concat, List.foldl_append, List.foldl_cons,
            List.foldl_nil]
          have heq : (List.range' 1 m).foldl
              (fun best rows => if n % rows = 0 then some (rows, n / rows) else best) none
              = some (r, n / r) := hfold
          rw [heq, Nat.add_comm 1 m]
          simp [hdm]
        · exact Nat.dvd_of_mod_eq_zero hdm
        · intro d _ hdle
          omega
      · refine ⟨r, ?_, hdvd, hpos, by omega, ?_⟩
        · simp only [foldBest, List.range'_1_concat, List.foldl_append, List.foldl_cons,
            List.foldl_nil]
          have heq : (List.range' 1 m).foldl
              (fun best rows => if n % rows = 0 then some (rows, n / rows) else best) none
              = some (r, n / r) := hfold
          rw [heq, Nat.add_comm 1 m]
          simp [hdm]
        · intro d hd hdle
          rcases Nat.lt_or_ge d (m + 1) with h | h
          · exact hmax d hd (by omega)
          · exfalso
            have hdeq : d = m + 1 := by omega
            subst hdeq
            exact hdm (Nat.dvd_iff_mod_eq_zero.mp hd)
    · have hm0 : m = 0 := by omega
      subst hm0
      refine ⟨1, ?_, Nat.one_dvd n, Nat.one_pos, le_refl _, ?_⟩
      · simp [foldBest, List.range', Nat.mod_one]
      · intro d hd hdle
        have : d ≠ 0 := by
          intro h0
          subst h0
          exact absurd (Nat.eq_zero_of_zero_dvd hd) (by omega)
        omega

/-- C7 counterexample: the fallback grid's row count matches neither reading
of the claim's parenthetical.  For three digit-free filenames the code
produces one row (`max_y = 0`, a 1×3 grid) while the claim's described
search — last exact divisor with row counts up to `ceil(sqrt n) + 1 = 3` —
selects 3 rows; for four filenames the code produces two rows (`max_y = 1`,
a 2×2 grid) while a "fewest rows" preference would select one row (1×4). -/
theorem fallback_grid_claim_counterexample :
    (fallback_grid ["a.png", "b.png", "c.png"]).2.2.2.2 = 0 ∧
    claimSearchRows 3 = some (3, 1) ∧
    (fallback_grid ["a.png", "b.png", "c.png", "d.png"]).2.2.2.2 = 1 := by
  have hs3 : Nat.sqrt 3 = 1 := by norm_num
  have hs4 : Nat.sqrt 4 = 2 := by norm_num
  have hb3 : fallbackBest 3 = some (1, 3) := by unfold fallbackBest; rw [hs3]; decide
  have hb4 : fallbackBest 4 = some (2, 2) := by unfold fallbackBest; rw [hs4]; decide
  have hc3 : ceilSqrt 3 = 2 := by unfold ceilSqrt; rw [hs3]; decide
  refine ⟨?_, ?_, ?_⟩
  · simp [fallback_grid, hb3]
  · unfold claimSearchRows
    rw [hc3]
    decide
  · simp [fallback_grid, hb4]

/-- C7 (amended): the fallback strategy searches row counts upward from 1
through `floor(sqrt n) + 1` (not `ceil(sqrt n) + 1`) and keeps the LAST
exact divisor found, i.e. the largest row count in that range dividing `n`
(not the fewest rows); the four digit-free example filenames do yield a 2×2
layout assigning all four files unique positions with no gaps. -/
theorem fallback_search_amended :
    (∀ n, 0 < n →
      ∃ r, fallbackBest n = some (r, n / r) ∧ r ∣ n ∧ 0 < r ∧ r ≤ Nat.sqrt n + 1 ∧
        ∀ d, d ∣ n → d ≤ Nat.sqrt n + 1 → d ≤ r) ∧
    fallback_grid ["a.png", "b.png", "c.png", "d.png"] =
      ([((0, 0), "a.png"), ((1, 0), "b.png"), ((0, 1), "c.png"), ((1, 1), "d.png")],
        0, 0, 1, 1) := by
  refine ⟨?_, ?_⟩
  · intro n hn
    exact foldBest_spec n hn (Nat.sqrt n + 1) (by omega)
  · have hs4 : Nat.sqrt 4 = 2 := by norm_num
    have hb4 : fallbackBest 4 = some (2, 2) := by unfold fallbackBest; rw [hs4]; decide
    simp only [fallback_grid, List.length_cons, List.length_nil, hb4]
    decide

/-- C7 witness: the amended search characterization applied at `n = 4`
(the divisor found is 2, the grid is 2×2). -/
theorem fallback_search_amended_witness :
    0 < 4 ∧
    ∃ r, fallbackBest 4 = some (r, 4 / r) ∧ r ∣ 4 ∧ 0 < r ∧ r ≤ Nat.sqrt 4 + 1 ∧
      ∀ d, d ∣ 4 → d ≤ Nat.sqrt 4 + 1 → d ≤ r :=
  ⟨by decide, fallback_search_amended.1 4 (by decide)⟩

/-- Congruence for `flatMap` restricted to members. -/
theorem flatMap_congr_mem {α β : Type} {l : List α} {f g : α → List β}
    (h : ∀ a ∈ l, f a = g a) : l.flatMap f = l.flatMap g := by
  induction l with
  | nil => rfl
  | cons b t ih =>
    simp only [List.flatMap_cons]
    rw [h b (List.mem_cons_self b t), ih (fun a ha => h a (List.mem_cons_of_mem b ha))]

/-- A guarded `filterMap` whose guard always holds is a `map`. -/
theorem filterMap_if_true {α β : Type} (l : List α) (p : α → Prop) [DecidablePred p]
    (f : α → β) (h : ∀ a ∈ l, p a) :
    (l.filterMap fun a => if p a then some (f a) else none) = l.map f := by
  induction l with
  | nil => rfl
  | cons b t ih =>
    simp only [List.filterMap_cons, List.map_cons]
    rw [if_pos (h b (List.mem_cons_self b t)), ih (fun a ha => h a (List.mem_cons_of_mem b ha))]

/-- The row-major index of an in-grid cell is inside an exactly-filled
grid. -/
theorem grid_index_lt (rows cols r c n : Nat) (h : rows * cols = n)
    (hr : r < rows) (hc : c < cols) : r * cols + c < n := by
  have h1 : r * cols + c < (r + 1) * cols := by
    rw [Nat.succ_mul]; omega
  have h2 : (r + 1) * cols ≤ rows * cols := Nat.mul_le_mul_right cols (by omega)
  omega

/-- When the grid size factors the file count exactly, the break guard of
`gridAssign` never fires: it is the plain double loop. -/
theorem gridAssign_full (files : List String) (rows cols : Nat)
    (h : rows * cols = files.length) :
    gridAssign files rows cols =
      (List.range rows).flatMap (fun r => (List.range cols).map (fun c =>
        ((Int.ofNat c, Int.ofNat r), files.getD (r * cols + c) ""))) := by
  unfold gridAssign
  apply flatMap_congr_mem
  intro r hr
  exact filterMap_if_true _ (fun c => r * cols + c < files.length) _
    (fun c hc => grid_index_lt rows cols r c files.length h
      (List.mem_range.mp hr) (List.mem_range.mp hc))

/-- Length of a rows×cols double loop. -/
theorem length_flatMap_grid {α : Type} (n m : Nat) (f : Nat → Nat → α) :
    ((List.range n).flatMap (fun r => (List.range m).map (f r))).length = n * m := by
  induction n with
  | zero => simp
  | succ k ih =>
    rw [List.range_succ, List.flatMap_append]
    simp [ih, Nat.succ_mul]

/-- The element of a rows×cols double loop at row-major index `r * m + c`. -/
theorem flatMap_grid_getElem {α : Type} (n m : Nat) (f : Nat → Nat → α) :
    ∀ (r c : Nat), r < n → c < m →
      ((List.range n).flatMap (fun row => (List.range m).map (f row)))[r * m + c]? =
        some (f r c) := by
  induction n with
  | zero => intro r c hr; omega
  | succ k ih =>
    intro r c hr hc
    rw [List.range_succ, List.flatMap_append]
    rcases Nat.lt_or_ge r k with h | h
    · rw [List.getElem?_append_left]
      · exact ih r c h hc
      · rw [length_flatMap_grid]
        exact grid_index_lt k m r c (k * m) rfl h hc
    · have hrk : r = k := by omega
      subst hrk
      rw [List.getElem?_append_right]
      · rw [length_flatMap_grid]
        simp only [List.flatMap_cons, List.flatMap_nil, List.append_nil]
        have : r * m + c - r * m = c := by omega
        rw [this, List.getElem?_map, List.getElem?_range hc]
        rfl
      · rw [length_flatMap_grid]
        omega

/-- The keys laid down by a rows×cols double loop are distinct. -/
theorem nodup_grid_keys (n m : Nat) :
    ((List.range n).flatMap (fun r => (List.range m).map (fun c =>
      (Int.ofNat c, Int.ofNat r)))).Nodup := by
  rw [List.nodup_flatMap]
  constructor
  · intro r _
    refine List.Nodup.map ?_ (List.nodup_range m)
    intro a b hab
    have := congrArg Prod.fst hab
    simpa using this
  · refine List.Pairwise.imp ?_ (List.pairwise_lt_range n)
    intro a b hab x hxa hxb
    simp only [List.mem_map, List.mem_range] at hxa hxb
    obtain ⟨c1, _, h1⟩ := hxa
    obtain ⟨c2, _, h2⟩ := hxb
    have heq : (Int.ofNat a) = (Int.ofNat b) := by
      have e1 := congrArg Prod.snd h1
      have e2 := congrArg Prod.snd h2
      simp only at e1 e2
      rw [e1, e2]
    have : a = b := Int.ofNat.inj heq
    omega

/-- C10: for a non-empty file list the divisor search always succeeds (row
count 1 divides `n`), so the ceiling-square default branch is unreachable;
the returned mapping assigns all `n` files pairwise-distinct positions that
exactly fill a `rows × cols = n` grid with extents
`(0, 0, cols - 1, rows - 1)`, leaving no position empty. -/
theorem fallback_grid_total (files : List String) (hne : 0 < files.length) :
    ∃ rows cols,
      fallbackBest files.length = some (rows, cols) ∧
      rows * cols = files.length ∧
      fallback_grid files =
        (gridAssign files rows cols, 0, 0, (cols : Int) - 1, (rows : Int) - 1) ∧
      (gridAssign files rows cols).length = files.length ∧
      ((gridAssign files rows cols).map Prod.fst).Nodup ∧
      (∀ i, i < files.length →
        ((Int.ofNat (i % cols), Int.ofNat (i / cols)), files.getD i "") ∈
          gridAssign files rows cols) ∧
      (∀ c, c < cols → ∀ r, r < rows →
        (Int.ofNat c, Int.ofNat r) ∈ (gridAssign files rows cols).map Prod.fst) := by
  obtain ⟨rows, hfold, hdvd, hpos, _, _⟩ :=
    foldBest_spec files.length hne (Nat.sqrt files.length + 1) (by omega)
  set n := files.length with hn
  set cols := n / rows with hcols
  have hrc : rows * cols = n := Nat.mul_div_cancel' hdvd
  have hcolpos : 0 < cols := by
    rcases Nat.eq_zero_or_pos cols with h | h
    · rw [h, Nat.mul_zero] at hrc; omega
    · exact h
  have hfb : fallbackBest n = some (rows, cols) := hfold
  refine ⟨rows, cols, hfb, hrc, ?_, ?_, ?_, ?_, ?_⟩
  · simp only [fallback_grid, ← hn, hfb]
  · rw [gridAssign_full files rows cols hrc, length_flatMap_grid, hrc]
  · rw [gridAssign_full files rows cols hrc, List.map_flatMap]
    have hfun : (fun r => ((List.range cols).map (fun c =>
        ((Int.ofNat c, Int.ofNat r), files.getD (r * cols + c) ""))).map Prod.fst) =
        fun r => (List.range cols).map (fun c => ((Int.ofNat c : Int), (Int.ofNat r : Int))) := by
      funext r
      rw [List.map_map]
      rfl
    rw [hfun]
    exact nodup_grid_keys rows cols
  · intro i hi
    have hclt : i % cols < cols := Nat.mod_lt i hcolpos
    have hrlt : i / cols < rows := by
      rw [Nat.div_lt_iff_lt_mul hcolpos, hrc]
      exact hi
    have hidx : (i / cols) * cols + i % cols = i := by
      rw [Nat.mul_comm]
      exact Nat.div_add_mod i cols
    rw [gridAssign_full files rows cols hrc]
    apply List.mem_flatMap.mpr
    refine ⟨i / cols, List.mem_range.mpr hrlt, ?_⟩
    apply List.mem_map.mpr
    refine ⟨i % cols, List.mem_range.mpr hclt, ?_⟩
    rw [hidx]
  · intro c hc r hr
    rw [gridAssign_full files rows cols hrc]
    apply List.mem_map.mpr
    refine ⟨((Int.ofNat c, Int.ofNat r), files.getD (r * cols + c) ""), ?_, rfl⟩
    apply List.mem_flatMap.mpr
    refine ⟨r, List.mem_range.mpr hr, ?_⟩
    exact List.mem_map.mpr ⟨c, List.mem_range.mpr hc, rfl⟩

/-- C10 witness: the divisor search, exact cover and extents at a concrete
one-file list. -/
theorem fallback_grid_total_witness :
    0 < (["solo.png"] : List String).length ∧
    ∃ rows cols,
      fallbackBest (["solo.png"] : List String).length = some (rows, cols) ∧
      rows * cols = (["solo.png"] : List String).length ∧
      fallback_grid ["solo.png"] =
        (gridAssign ["solo.png"] rows cols, 0, 0, (cols : Int) - 1, (rows : Int) - 1) ∧
      (gridAssign ["solo.png"] rows cols).length = (["solo.png"] : List String).length ∧
      ((gridAssign ["solo.png"] rows cols).map Prod.fst).Nodup ∧
      (∀ i, i < (["solo.png"] : List String).length →
        ((Int.ofNat (i % cols), Int.ofNat (i / cols)), (["solo.png"] : List String).getD i "") ∈
          gridAssign ["solo.png"] rows cols) ∧
      (∀ c, c < cols → ∀ r, r < rows →
        (Int.ofNat c, Int.ofNat r) ∈ (gridAssign ["solo.png"] rows cols).map Prod.fst) :=
  ⟨by decide, fallback_grid_total ["solo.png"] (by decide)⟩

/-- Mode conversion never changes an image's size. -/
theorem convert_width (t : PImage) (m : PMode) : (t.convert m).width = t.width := by
  unfold PImage.convert
  cases t.mode <;> cases m <;> rfl

/-- Mode conversion never changes an image's size. -/
theorem convert_height (t : PImage) (m : PMode) : (t.convert m).height = t.height := by
  unfold PImage.convert
  cases t.mode <;> cases m <;> rfl

/-- Converting to RGBA never changes pixel values (only RGBA→RGB touches
the alpha channel). -/
theorem convert_rgba_pix (t : PImage) : (t.convert PMode.rgba).pix = t.pix := by
  unfold PImage.convert
  cases t.mode <;> rfl

/-- Distinct keys paste into disjoint canvas rectangles. -/
theorem inRegion_disjoint (min_x min_y : Int) (tw th : Nat) (k k' : Int × Int)
    (X Y : Nat) (hne : k ≠ k') (h : inRegion min_x min_y tw th k X Y)
    (h' : inRegion min_x min_y tw th k' X Y) : False := by
  obtain ⟨h1, h2, h3, h4⟩ := h
  obtain ⟨h1', h2', h3', h4'⟩ := h'
  by_cases hx : k.1 = k'.1
  · have hy : k.2 ≠ k'.2 := by
      intro hy
      exact hne (Prod.ext hx hy)
    rcases Int.lt_or_lt_of_ne hy with h | h
    · have : (k.2 - min_y + 1) * (th : Int) ≤ (k'.2 - min_y) * th :=
        Int.mul_le_mul_of_nonneg_right (by omega) (by positivity)
      nlinarith
    · have : (k'.2 - min_y + 1) * (th : Int) ≤ (k.2 - min_y) * th :=
        Int.mul_le_mul_of_nonneg_right (by omega) (by positivity)
      nlinarith
  · rcases Int.lt_or_lt_of_ne hx with h | h
    · have : (k.1 - min_x + 1) * (tw : Int) ≤ (k'.1 - min_x) * tw :=
        Int.mul_le_mul_of_nonneg_right (by omega) (by positivity)
      nlinarith
    · have : (k'.1 - min_x + 1) * (tw : Int) ≤ (k.1 - min_x) * tw :=
        Int.mul_le_mul_of_nonneg_right (by omega) (by positivity)
      nlinarith

/-- A canvas pixel covered by no surviving paste rectangle keeps its value
through the whole paste loop. -/
theorem foldl_pasteStep_not_covered (mode : PMode) (min_x min_y : Int) (tw th : Nat)
    (X Y : Nat) :
    ∀ (L : List ((Int × Int) × Option PImage)) (cv : PImage),
      (∀ k t, (k, some t) ∈ L → t.width = tw ∧ t.height = th) →
      (∀ k ot, (k, ot) ∈ L → ot.isSome → ¬ inRegion min_x min_y tw th k X Y) →
      (L.foldl (pasteStep mode min_x min_y tw th) cv).pix X Y = cv.pix X Y := by
  intro L
  induction L with
  | nil => intro cv _ _; rfl
  | cons e L ih =>
    intro cv hdim hcov
    rw [List.foldl_cons]
    rw [ih _ (fun k t hkt => hdim k t (List.mem_cons_of_mem e hkt))
        (fun k ot hk => hcov k ot (List.mem_cons_of_mem e hk))]
    obtain ⟨k, ot⟩ := e
    cases ot with
    | none => rfl
    | some t =>
      have hnreg := hcov k (some t) (List.mem_cons_self _ _) rfl
      have hd := hdim k t (List.mem_cons_self _ _)
      simp only [pasteStep, PImage.paste]
      rw [if_neg]
      intro hcond
      apply hnreg
      obtain ⟨c1, c2, c3, c4⟩ := hcond
      simp only [convert_width, convert_height, hd.1, hd.2] at c2 c4
      exact ⟨c1, c2, c3, c4⟩

/-- A canvas pixel inside the rectangle of a decodable mapping entry ends up
holding that tile's pixel, provided keys are distinct (so no other paste
overwrites it). -/
theorem foldl_pasteStep_covered (mode : PMode) (min_x min_y : Int) (tw th : Nat)
    (X Y : Nat) (x y : Int) (t : PImage) :
    ∀ (L : List ((Int × Int) × Option PImage)) (cv : PImage),
      ((x, y), some t) ∈ L →
      (L.map Prod.fst).Nodup →
      (∀ k t', (k, some t') ∈ L → t'.width = tw ∧ t'.height = th) →
      inRegion min_x min_y tw th (x, y) X Y →
      (L.foldl (pasteStep mode min_x min_y tw th) cv).pix X Y =
        (t.convert mode).pix ((X : Int) - (x - min_x) * tw).toNat
          ((Y : Int) - (y - min_y) * th).toNat := by
  intro L
  induction L with
  | nil => intro cv hmem; exact absurd hmem (List.not_mem_nil _)
  | cons e L ih =>
    intro cv hmem hnodup hdim hcov
    have hnd : e.1 ∉ L.map Prod.fst ∧ (L.map Prod.fst).Nodup := by
      have h1 := hnodup
      rw [List.map_cons, List.nodup_cons] at h1
      exact h1
    by_cases hk : e.1 = (x, y)
    · have hxynot : (x, y) ∉ L.map Prod.fst := by
        rw [← hk]
        exact hnd.1
      have hrest : ∀ k ot, (k, ot) ∈ L → ot.isSome → ¬ inRegion min_x min_y tw th k X Y := by
        intro k ot hkot _ hreg
        have hkne : k ≠ (x, y) := by
          intro hkeq
          subst hkeq
          exact hxynot (List.mem_map.mpr ⟨((x, y), ot), hkot, rfl⟩)
        exact inRegion_disjoint min_x min_y tw th k (x, y) X Y hkne hreg hcov
      have hme : e = ((x, y), some t) := by
        rcases List.mem_cons.mp hmem with h | h
        · exact h.symm
        · exact absurd (List.mem_map.mpr ⟨((x, y), some t), h, rfl⟩) hxynot
      subst hme
      rw [List.foldl_cons,
        foldl_pasteStep_not_covered mode min_x min_y tw th X Y L _
          (fun k t' hkt => hdim k t' (List.mem_cons_of_mem _ hkt)) hrest]
      have hd := hdim (x, y) t (List.mem_cons_self _ _)
      simp only [pasteStep, PImage.paste]
      rw [if_pos]
      obtain ⟨c1, c2, c3, c4⟩ := hcov
      simp only [convert_width, convert_height, hd.1, hd.2]
      exact ⟨c1, c2, c3, c4⟩
    · have hmem' : ((x, y), some t) ∈ L := by
        rcases List.mem_cons.mp hmem with h | h
        · exact absurd (congrArg Prod.fst h.symm) hk
        · exact h
      rw [List.foldl_cons]
      exact ih _ hmem' hnd.2
        (fun k t' hkt => hdim k t' (List.mem_cons_of_mem e hkt)) hcov

/-- The paste loop never changes the canvas size. -/
theorem foldl_pasteStep_width (mode : PMode) (min_x min_y : Int) (tw th : Nat) :
    ∀ (L : List ((Int × Int) × Option PImage)) (cv : PImage),
      (L.foldl (pasteStep mode min_x min_y tw th) cv).width = cv.width := by
  intro L
  induction L with
  | nil => intro cv; rfl
  | cons e L ih =>
    intro cv
    rw [List.foldl_cons, ih]
    obtain ⟨k, ot⟩ := e
    cases ot <;> rfl

/-- The paste loop never changes the canvas size. -/
theorem foldl_pasteStep_height (mode : PMode) (min_x min_y : Int) (tw th : Nat) :
    ∀ (L : List ((Int × Int) × Option PImage)) (cv : PImage),
      (L.foldl (pasteStep mode min_x min_y tw th) cv).height = cv.height := by
  intro L
  induction L with
  | nil => intro cv; rfl
  | cons e L ih =>
    intro cv
    rw [List.foldl_cons, ih]
    obtain ⟨k, ot⟩ := e
    cases ot <;> rfl

/-- Every chunk produced by `slice_image` is exactly `C × C` (full chunks by
the crop bounds, edge chunks by the transparent padding). -/
theorem chunkTile_dims (img : PImage) (C row col : Nat) :
    (chunkTile img C row col).width = C ∧ (chunkTile img C row col).height = C := by
  simp only [chunkTile]
  split
  · next h => exact h
  · exact ⟨rfl, rfl⟩

/-- The pixels of a chunk: source pixels translated by the crop origin where
the crop covers them, fully transparent padding elsewhere. -/
theorem chunkTile_pix (img : PImage) (C row col : Nat) (u v : Nat)
    (hu : u < C) (hv : v < C) :
    (chunkTile img C row col).pix u v =
      if col * C + u < img.width ∧ row * C + v < img.height
      then img.pix (col * C + u) (row * C + v) else transparent := by
  simp only [chunkTile]
  split
  · next hfull =>
    have hcond : col * C + u < img.width ∧ row * C + v < img.height := by omega
    rw [if_pos hcond]
  · next hnotfull =>
    simp only [PImage.paste, convert_width, convert_height, convert_rgba_pix]
    by_cases htarget : col * C + u < img.width ∧ row * C + v < img.height
    · rw [if_pos htarget, if_pos]
      · congr 1
      · refine ⟨by omega, by omega, by omega, by omega⟩
    · rw [if_neg htarget, if_neg]
      intro hcond
      apply htarget
      obtain ⟨c1, c2, c3, c4⟩ := hcond
      omega

/-- C2: for a positive chunk size the Tiler produces exactly
`ceil(H/C) * ceil(W/C)` tiles; the row-major list element at index
`row * cols + col` is the `(row, col)` tile; every tile is exactly `C × C`;
and its pixels are the source crop starting at `(col*C, row*C)` where the
crop covers them (pasted at the origin, never resampled) and fully
transparent padding elsewhere. -/
theorem slice_tiles_spec (img : PImage) (C : Nat) (hC : 0 < C) :
    (slice_image img C).length = cdiv img.height C * cdiv img.width C ∧
    ∀ row, row < cdiv img.height C → ∀ col, col < cdiv img.width C →
      (slice_image img C)[row * cdiv img.width C + col]? =
        some (row, col, chunkTile img C row col) ∧
      (chunkTile img C row col).width = C ∧
      (chunkTile img C row col).height = C ∧
      ∀ u, u < C → ∀ v, v < C →
        (chunkTile img C row col).pix u v =
          if col * C + u < img.width ∧ row * C + v < img.height
          then img.pix (col * C + u) (row * C + v) else transparent := by
  refine ⟨?_, ?_⟩
  · unfold slice_image
    exact length_flatMap_grid _ _ _
  · intro row hrow col hcol
    refine ⟨?_, (chunkTile_dims img C row col).1, (chunkTile_dims img C row col).2, ?_⟩
    · unfold slice_image
      exact flatMap_grid_getElem _ _ _ row col hrow hcol
    · intro u hu v hv
      exact chunkTile_pix img C row col u v hu hv

/-- C2 witness: the tile inventory of the 3×5 fixture sliced with `C = 2`,
at grid position `(row, col) = (2, 1)` (a doubly clipped corner tile). -/
theorem slice_tiles_spec_witness :
    0 < 2 ∧
    ((slice_image testImg35 2).length = cdiv testImg35.height 2 * cdiv testImg35.width 2 ∧
    ∀ row, row < cdiv testImg35.height 2 → ∀ col, col < cdiv testImg35.width 2 →
      (slice_image testImg35 2)[row * cdiv testImg35.width 2 + col]? =
        some (row, col, chunkTile testImg35 2 row col) ∧
      (chunkTile testImg35 2 row col).width = 2 ∧
      (chunkTile testImg35 2 row col).height = 2 ∧
      ∀ u, u < 2 → ∀ v, v < 2 →
        (chunkTile testImg35 2 row col).pix u v =
          if col * 2 + u < testImg35.width ∧ row * 2 + v < testImg35.height
          then testImg35.pix (col * 2 + u) (row * 2 + v) else transparent) :=
  ⟨by decide, slice_tiles_spec testImg35 2 (by decide)⟩

/-- C8: with the tile size resolved (explicitly, or from the first tile's
dimensions), the Stitcher yields a canvas of exactly
`(max_x-min_x+1)*tile_w` by `(max_y-min_y+1)*tile_h` pixels filled with the
configured background color; every decodable tile of a distinct-key layout
shows, converted to the canvas mode, inside its paste rectangle at offset
`((x-min_x)*tile_w, (y-min_y)*tile_h)` (the rectangle `inRegion` describes);
pixels covered by no tile hold the background color; and the concrete 1×2
layout of two 4×4 opaque-red tiles over a black background yields an 8×4
canvas that is entirely red. -/
theorem stitch_layout_spec
    (mapping : List ((Int × Int) × Option PImage)) (min_x min_y max_x max_y : Int)
    (fill : RGBA) (fillHasAlpha : Bool) (tsOpt : Option Nat) (tw th : Nat)
    (hres : resolveTileSize tsOpt mapping = Except.ok (tw, th))
    (hnodup : (mapping.map Prod.fst).Nodup)
    (hdim : ∀ k t, (k, some t) ∈ mapping → t.width = tw ∧ t.height = th) :
    (∃ canvas,
      stitch mapping min_x min_y max_x max_y fill fillHasAlpha tsOpt = Except.ok canvas ∧
      canvas.width = (max_x - min_x + 1).toNat * tw ∧
      canvas.height = (max_y - min_y + 1).toNat * th ∧
      (∀ x y t, ((x, y), some t) ∈ mapping → ∀ X Y : Nat,
        inRegion min_x min_y tw th (x, y) X Y →
          canvas.pix X Y =
            (t.convert (if fillHasAlpha then PMode.rgba else PMode.rgb)).pix
              ((X : Int) - (x - min_x) * tw).toNat ((Y : Int) - (y - min_y) * th).toNat) ∧
      (∀ X Y : Nat, (∀ k, k ∈ mapping.map Prod.fst → ¬ inRegion min_x min_y tw th k X Y) →
        canvas.pix X Y = (if fillHasAlpha then fill else { fill with a := 255 }))) ∧
    (∃ cv, stitch redMapping 0 0 1 0 ⟨0, 0, 0, 0⟩ false (some 4) = Except.ok cv ∧
      cv.width = 8 ∧ cv.height = 4 ∧
      ∀ X, X < 8 → ∀ Y, Y < 4 → cv.pix X Y = redPix) := by
  constructor
  · unfold stitch
    rw [hres]
    refine ⟨_, rfl, ?_, ?_, ?_, ?_⟩
    · rw [foldl_pasteStep_width]
    · rw [foldl_pasteStep_height]
    · intro x y t hmem X Y hcov
      exact foldl_pasteStep_covered _ min_x min_y tw th X Y x y t mapping _
        hmem hnodup hdim hcov
    · intro X Y hnc
      rw [foldl_pasteStep_not_covered _ min_x min_y tw th X Y mapping _ hdim
        (fun k ot hk _ => hnc k (List.mem_map.mpr ⟨(k, ot), hk, rfl⟩))]
  · refine ⟨_, rfl, by decide, by decide, by decide⟩

/-- C8 witness: the general stitch characterization applied at the concrete
red-tile layout (explicit tile size 4, black 3-tuple background). -/
theorem stitch_layout_spec_witness :
    (resolveTileSize (some 4) redMapping = Except.ok (4, 4) ∧
      (redMapping.map Prod.fst).Nodup ∧
      ∀ k t, (k, some t) ∈ redMapping → t.width = 4 ∧ t.height = 4) ∧
    ((∃ canvas,
      stitch redMapping 0 0 1 0 ⟨0, 0, 0, 0⟩ false (some 4) = Except.ok canvas ∧
      canvas.width = ((1 : Int) - 0 + 1).toNat * 4 ∧
      canvas.height = ((0 : Int) - 0 + 1).toNat * 4 ∧
      (∀ x y t, ((x, y), some t) ∈ redMapping → ∀ X Y : Nat,
        inRegion 0 0 4 4 (x, y) X Y →
          canvas.pix X Y =
            (t.convert (if false then PMode.rgba else PMode.rgb)).pix
              ((X : Int) - (x - 0) * 4).toNat ((Y : Int) - (y - 0) * 4).toNat) ∧
      (∀ X Y : Nat, (∀ k, k ∈ redMapping.map Prod.fst → ¬ inRegion 0 0 4 4 k X Y) →
        canvas.pix X Y =
          (if false then ⟨0, 0, 0, 0⟩ else { (⟨0, 0, 0, 0⟩ : RGBA) with a := 255 }))) ∧
    (∃ cv, stitch redMapping 0 0 1 0 ⟨0, 0, 0, 0⟩ false (some 4) = Except.ok cv ∧
      cv.width = 8 ∧ cv.height = 4 ∧
      ∀ X, X < 8 → ∀ Y, Y < 4 → cv.pix X Y = redPix)) := by
  have hdim : ∀ k t, (k, some t) ∈ redMapping → t.width = 4 ∧ t.height = 4 := by
    intro k t h
    rcases List.mem_cons.mp h with h1 | h1
    · have h2 : some t = some redTile4 := congrArg Prod.snd h1
      rw [Option.some.injEq] at h2
      subst h2
      exact ⟨rfl, rfl⟩
    · rcases List.mem_cons.mp h1 with h2 | h2
      · have h3 : some t = some redTile4 := congrArg Prod.snd h2
        rw [Option.some.injEq] at h3
        subst h3
        exact ⟨rfl, rfl⟩
      · exact absurd h2 (List.not_mem_nil _)
  exact ⟨⟨rfl, by decide, hdim⟩,
    stitch_layout_spec redMapping 0 0 1 0 ⟨0, 0, 0, 0⟩ false (some 4) 4 4 rfl (by decide) hdim⟩

/-- With distinct keys, a key determines its mapping entry. -/
theorem nodup_keys_eq {K V : Type} [DecidableEq K] :
    ∀ (L : List (K × V)), (L.map Prod.fst).Nodup →
      ∀ (k : K) (a b : V), (k, a) ∈ L → (k, b) ∈ L → a = b := by
  intro L
  induction L with
  | nil => intro _ k a b ha; exact absurd ha (List.not_mem_nil _)
  | cons e T ih =>
    intro hnodup k a b ha hb
    have hnd : e.1 ∉ T.map Prod.fst ∧ (T.map Prod.fst).Nodup := by
      have h1 := hnodup
      rw [List.map_cons, List.nodup_cons] at h1
      exact h1
    rcases List.mem_cons.mp ha with h1 | h1 <;> rcases List.mem_cons.mp hb with h2 | h2
    · rw [← h1] at h2
      exact (Prod.mk.injEq _ _ _ _ |>.mp h2).2.symm
    · exfalso
      apply hnd.1
      rw [← h1]
      exact List.mem_map.mpr ⟨(k, b), h2, rfl⟩
    · exfalso
      apply hnd.1
      rw [← h2]
      exact List.mem_map.mpr ⟨(k, a), h1, rfl⟩
    · exact ih hnd.2 k a b h1 h2

/-- C9 counterexample: with an unspecified tile size, `stitch` opens the
first tile outside any error handling to infer the tile dimensions; when
that tile is undecodable the whole stitch aborts with an exception instead
of skipping the tile, and no composite is produced. -/
theorem stitch_abort_counterexample :
    stitch mixedMapping 0 0 1 0 transparent true none =
      Except.error "cannot identify image file" ∧
    ¬ ∃ cv, stitch mixedMapping 0 0 1 0 transparent true none = Except.ok cv := by
  refine ⟨rfl, ?_⟩
  rintro ⟨cv, h⟩
  exact Except.noConfusion h

/-- C9 (amended): when the tile size is explicitly provided (as the CLI
always does), every mapping entry whose tile fails to decode is skipped:
its paste rectangle keeps the background color, every decodable tile is
still pasted, and the composite is still produced.  Tile-size INFERENCE,
however, opens the first tile outside the paste loop's error handling, so
an undecodable FIRST tile then aborts the stitch (see the
counterexample). -/
theorem stitch_skip_undecodable
    (mapping : List ((Int × Int) × Option PImage)) (min_x min_y max_x max_y : Int)
    (fill : RGBA) (fillHasAlpha : Bool) (ts : Nat)
    (hnodup : (mapping.map Prod.fst).Nodup)
    (hdim : ∀ k t, (k, some t) ∈ mapping → t.width = ts ∧ t.height = ts) :
    ∃ canvas,
      stitch mapping min_x min_y max_x max_y fill fillHasAlpha (some ts) =
        Except.ok canvas ∧
      (∀ x y, ((x, y), none) ∈ mapping → ∀ X Y : Nat,
        inRegion min_x min_y ts ts (x, y) X Y →
          canvas.pix X Y = (if fillHasAlpha then fill else { fill with a := 255 })) ∧
      (∀ x y t, ((x, y), some t) ∈ mapping → ∀ X Y : Nat,
        inRegion min_x min_y ts ts (x, y) X Y →
          canvas.pix X Y =
            (t.convert (if fillHasAlpha then PMode.rgba else PMode.rgb)).pix
              ((X : Int) - (x - min_x) * ts).toNat ((Y : Int) - (y - min_y) * ts).toNat) := by
  refine ⟨_, rfl, ?_, ?_⟩
  · intro x y hmem X Y hreg
    rw [foldl_pasteStep_not_covered _ min_x min_y ts ts X Y mapping _ hdim ?_]
    · intro k ot hk hsome hreg'
      obtain ⟨t, rfl⟩ := Option.isSome_iff_exists.mp hsome
      have hkne : k ≠ (x, y) := by
        intro hkeq
        subst hkeq
        exact Option.noConfusion (nodup_keys_eq mapping hnodup (x, y) (some t) none hk hmem)
      exact inRegion_disjoint min_x min_y ts ts k (x, y) X Y hkne hreg' hreg
  · intro x y t hmem X Y hreg
    exact foldl_pasteStep_covered _ min_x min_y ts ts X Y x y t mapping _
      hmem hnodup hdim hreg

/-- C9 witness: the amended skip behaviour at a concrete two-entry mapping
whose first tile is undecodable (explicit tile size 4). -/
theorem stitch_skip_undecodable_witness :
    ((mixedMapping.map Prod.fst).Nodup ∧
      (∀ k t, (k, some t) ∈ mixedMapping → t.width = 4 ∧ t.height = 4)) ∧
    (∃ canvas,
      stitch mixedMapping 0 0 1 0 transparent true (some 4) = Except.ok canvas ∧
      (∀ x y, ((x, y), none) ∈ mixedMapping → ∀ X Y : Nat,
        inRegion 0 0 4 4 (x, y) X Y →
          canvas.pix X Y = (if true then transparent else { transparent with a := 255 })) ∧
      (∀ x y t, ((x, y), some t) ∈ mixedMapping → ∀ X Y : Nat,
        inRegion 0 0 4 4 (x, y) X Y →
          canvas.pix X Y =
            (t.convert (if true then PMode.rgba else PMode.rgb)).pix
              ((X : Int) - (x - 0) * 4).toNat ((Y : Int) - (y - 0) * 4).toNat)) := by
  have hdim : ∀ k t, (k, some t) ∈ mixedMapping → t.width = 4 ∧ t.height = 4 := by
    intro k t h
    rcases List.mem_cons.mp h with h1 | h1
    · exact absurd (congrArg Prod.snd h1) (by simp)
    · rcases List.mem_cons.mp h1 with h2 | h2
      · have h3 : some t = some redTile4 := congrArg Prod.snd h2
        rw [Option.some.injEq] at h3
        subst h3
        exact ⟨rfl, rfl⟩
      · exact absurd h2 (List.not_mem_nil _)
  exact ⟨⟨by decide, hdim⟩,
    stitch_skip_undecodable mixedMapping 0 0 1 0 transparent true 4 (by decide) hdim⟩

/-- Ceiling division bounds its argument: `a ≤ ceil(a/b) * b`. -/
theorem le_cdiv_mul (a b : Nat) (hb : 0 < b) : a ≤ cdiv a b * b := by
  unfold cdiv
  have key := Nat.div_add_mod (a + b - 1) b
  have hm : (a + b - 1) % b < b := Nat.mod_lt _ hb
  rw [Nat.mul_comm]
  generalize hA : b * ((a + b - 1) / b) = A at key ⊢
  omega

/-- The keys of the slice mapping are the full grid of
`(col, row)` pairs. -/
theorem sliceMapping_keys (img : PImage) (C : Nat) :
    (sliceMapping img C).map Prod.fst =
      (List.range (cdiv img.height C)).flatMap (fun r =>
        (List.range (cdiv img.width C)).map (fun c => ((Int.ofNat c, Int.ofNat r)))) := by
  unfold sliceMapping slice_image
  rw [List.map_flatMap, List.map_flatMap]
  apply flatMap_congr_mem
  intro r _
  rw [List.map_map, List.map_map]
  rfl

/-- Every tile of the slice mapping is a `C × C` chunk. -/
theorem sliceMapping_dims (img : PImage) (C : Nat) :
    ∀ k t, (k, some t) ∈ sliceMapping img C → t.width = C ∧ t.height = C := by
  intro k t h
  unfold sliceMapping at h
  obtain ⟨⟨r, c, tile⟩, hmem2, heq⟩ := List.mem_map.mp h
  have htile : tile = t := by
    have h2 : some tile = some t := congrArg Prod.snd heq
    exact Option.some.inj h2
  subst htile
  unfold slice_image at hmem2
  obtain ⟨r2, _, hmm⟩ := List.mem_flatMap.mp hmem2
  obtain ⟨c2, _, heq2⟩ := List.mem_map.mp hmm
  have : tile = chunkTile img C r2 c2 := (congrArg (fun p => p.2.2) heq2).symm
  rw [this]
  exact chunkTile_dims img C r2 c2

/-- The `(row, col)` chunk sits in the slice mapping under its true key. -/
theorem sliceMapping_mem (img : PImage) (C : Nat) (row col : Nat)
    (hrow : row < cdiv img.height C) (hcol : col < cdiv img.width C) :
    ((Int.ofNat col, Int.ofNat row), some (chunkTile img C row col)) ∈
      sliceMapping img C := by
  unfold sliceMapping slice_image
  apply List.mem_map.mpr
  refine ⟨(row, col, chunkTile img C row col), ?_, rfl⟩
  apply List.mem_flatMap.mpr
  exact ⟨row, List.mem_range.mpr hrow,
    List.mem_map.mpr ⟨col, List.mem_range.mpr hcol, rfl⟩⟩

/-- The composite of the slice mapping: whatever the starting canvas, every
in-range pixel is the source pixel inside `W × H` and the transparent
padding outside it. -/
theorem sliceStitch_pix (img : PImage) (C : Nat) (hC : 0 < C) (X Y : Nat)
    (hX : X < cdiv img.width C * C) (hY : Y < cdiv img.height C * C) :
    ∀ cv : PImage,
      ((sliceMapping img C).foldl (pasteStep PMode.rgba 0 0 C C) cv).pix X Y =
        if X < img.width ∧ Y < img.height then img.pix X Y else transparent := by
  intro cv
  have hnodup : ((sliceMapping img C).map Prod.fst).Nodup := by
    rw [sliceMapping_keys]
    exact nodup_grid_keys _ _
  have hcol : X / C < cdiv img.width C := by
    rw [Nat.div_lt_iff_lt_mul hC]
    exact hX
  have hrow : Y / C < cdiv img.height C := by
    rw [Nat.div_lt_iff_lt_mul hC]
    exact hY
  have keyX : X / C * C + X % C = X := by
    rw [Nat.mul_comm]
    exact Nat.div_add_mod X C
  have keyY : Y / C * C + Y % C = Y := by
    rw [Nat.mul_comm]
    exact Nat.div_add_mod Y C
  have hmX : X % C < C := Nat.mod_lt X hC
  have hmY : Y % C < C := Nat.mod_lt Y hC
  have hx1 : X / C * C ≤ X := by omega
  have hy1 : Y / C * C ≤ Y := by omega
  have hx2 : X < X / C * C + C := by
    generalize hA : X / C * C = A at keyX ⊢
    omega
  have hy2 : Y < Y / C * C + C := by
    generalize hA : Y / C * C = A at keyY ⊢
    omega
  have hreg : inRegion 0 0 C C (Int.ofNat (X / C), Int.ofNat (Y / C)) X Y := by
    refine ⟨?_, ?_, ?_, ?_⟩
    · show (Int.ofNat (X / C) - 0) * (C : Int) ≤ (X : Int)
      rw [sub_zero, Int.ofNat_eq_natCast]
      exact_mod_cast hx1
    · show (X : Int) < (Int.ofNat (X / C) - 0) * (C : Int) + (C : Int)
      rw [sub_zero, Int.ofNat_eq_natCast]
      exact_mod_cast hx2
    · show (Int.ofNat (Y / C) - 0) * (C : Int) ≤ (Y : Int)
      rw [sub_zero, Int.ofNat_eq_natCast]
      exact_mod_cast hy1
    · show (Y : Int) < (Int.ofNat (Y / C) - 0) * (C : Int) + (C : Int)
      rw [sub_zero, Int.ofNat_eq_natCast]
      exact_mod_cast hy2
  rw [foldl_pasteStep_covered PMode.rgba 0 0 C C X Y
    (Int.ofNat (X / C)) (Int.ofNat (Y / C)) (chunkTile img C (Y / C) (X / C))
    (sliceMapping img C) cv
    (sliceMapping_mem img C (Y / C) (X / C) hrow hcol) hnodup
    (sliceMapping_dims img C) hreg]
  rw [convert_rgba_pix]
  have hiX : ((X : Int) - (Int.ofNat (X / C) - 0) * (C : Int)).toNat = X % C := by
    rw [sub_zero]
    rw [show (Int.ofNat (X / C)) * (C : Int) = ((X / C * C : Nat) : Int) by
      rw [Int.ofNat_eq_natCast, Nat.cast_mul]]
    rw [← Nat.cast_sub hx1, Int.toNat_natCast]
    generalize hA : X / C * C = A at keyX ⊢
    omega
  have hiY : ((Y : Int) - (Int.ofNat (Y / C) - 0) * (C : Int)).toNat = Y % C := by
    rw [sub_zero]
    rw [show (Int.ofNat (Y / C)) * (C : Int) = ((Y / C * C : Nat) : Int) by
      rw [Int.ofNat_eq_natCast, Nat.cast_mul]]
    rw [← Nat.cast_sub hy1, Int.toNat_natCast]
    generalize hA : Y / C * C = A at keyY ⊢
    omega
  rw [hiX, hiY, chunkTile_pix img C (Y / C) (X / C) (X % C) (Y % C) hmX hmY, keyX, keyY]

/-- C1: slicing an image with a positive chunk size and stitching the tiles
back under their true `(row, col)` coordinates (transparent background,
explicit tile size `C`) produces a canvas of exactly
`ceil(W/C)*C × ceil(H/C)*C` pixels whose top-left `W × H` region is
pixel-identical to the source and whose padding region outside it is fully
transparent. -/
theorem roundtrip_slice_stitch (img : PImage) (C : Nat) (hC : 0 < C) :
    ∃ canvas,
      stitch (sliceMapping img C) 0 0 ((cdiv img.width C : Int) - 1)
        ((cdiv img.height C : Int) - 1) transparent true (some C) = Except.ok canvas ∧
      canvas.width = cdiv img.width C * C ∧
      canvas.height = cdiv img.height C * C ∧
      (∀ X, X < img.width → ∀ Y, Y < img.height → canvas.pix X Y = img.pix X Y) ∧
      (∀ X, X < cdiv img.width C * C → ∀ Y, Y < cdiv img.height C * C →
        img.width ≤ X ∨ img.height ≤ Y → canvas.pix X Y = transparent) := by
  refine ⟨(sliceMapping img C).foldl (pasteStep PMode.rgba 0 0 C C)
      ⟨PMode.rgba, ((cdiv img.width C : Int) - 1 - 0 + 1).toNat * C,
        ((cdiv img.height C : Int) - 1 - 0 + 1).toNat * C, fun _ _ => transparent⟩,
    rfl, ?_, ?_, ?_, ?_⟩
  · rw [foldl_pasteStep_width]
    show ((cdiv img.width C : Int) - 1 - 0 + 1).toNat * C = cdiv img.width C * C
    congr 1
    omega
  · rw [foldl_pasteStep_height]
    show ((cdiv img.height C : Int) - 1 - 0 + 1).toNat * C = cdiv img.height C * C
    congr 1
    omega
  · intro X hXW Y hYH
    have hX : X < cdiv img.width C * C := Nat.lt_of_lt_of_le hXW (le_cdiv_mul _ _ hC)
    have hY : Y < cdiv img.height C * C := Nat.lt_of_lt_of_le hYH (le_cdiv_mul _ _ hC)
    rw [sliceStitch_pix img C hC X Y hX hY _, if_pos ⟨hXW, hYH⟩]
  · intro X hX Y hY hout
    rw [sliceStitch_pix img C hC X Y hX hY _, if_neg (by omega)]

/-- C1 witness: the round trip at the 3×5 fixture with chunk size 2 (both
axes clipped, so padding appears on the right and bottom). -/
theorem roundtrip_slice_stitch_witness :
    0 < 2 ∧
    ∃ canvas,
      stitch (sliceMapping testImg35 2) 0 0 ((cdiv testImg35.width 2 : Int) - 1)
        ((cdiv testImg35.height 2 : Int) - 1) transparent true (some 2) =
          Except.ok canvas ∧
      canvas.width = cdiv testImg35.width 2 * 2 ∧
      canvas.height = cdiv testImg35.height 2 * 2 ∧
      (∀ X, X < testImg35.width → ∀ Y, Y < testImg35.height →
        canvas.pix X Y = testImg35.pix X Y) ∧
      (∀ X, X < cdiv testImg35.width 2 * 2 → ∀ Y, Y < cdiv testImg35.height 2 * 2 →
        testImg35.width ≤ X ∨ testImg35.height ≤ Y → canvas.pix X Y = transparent) :=
  ⟨by decide, roundtrip_slice_stitch testImg35 2 (by decide)⟩
